import Mathlib

/-!
# Shallow embedding of SpectralZK

A shallow embedding of the core of the SpectralZK repository
(`src/spectralzk/tiling.py`, `src/spectralzk/commitment.py`,
`src/spectralzk/protocol.py`) together with theorems settling the
specification claims about it.

Modelling conventions:
* `Point` coordinates are Python floats, but every point the protocol ever
  constructs or looks up has integer-valued coordinates (region generation
  starts from the integer origin `(0, 0)` and only ever adds integer offsets),
  and Python float equality/hash on such values coincides with integer
  equality, so coordinates are modelled as `Int`.
* Python dicts are modelled as association lists in insertion order; a dict
  comprehension that can rewrite a key (last write wins) is modelled by a
  last-occurrence lookup.
* The cryptographic hashes are kept abstract: `hashPos x y` stands for
  `int(hashlib.md5(f"{seed}:{x:.3f},{y:.3f}").hexdigest()[:8], 16)` from
  `Tiling._hash_position` (the seed is folded into the parameter), and
  `sha256 : String → String` stands for
  `hashlib.sha256(data.encode()).hexdigest()` from `Commitment.create`.
  No claim depends on the internal structure of the digests.
* The random draws performed by the code (`secrets.randbelow`,
  `secrets.token_hex`, random nonces, random start points) are passed in
  explicitly as arguments, so each operation is a deterministic function of
  its randomness, mirroring the source exactly for each fixed outcome of
  the draws.
* Machine integers: Python integers are unbounded, so `Int`/`Nat` model them
  with no wrap-around.
-/

/-- Structure `Point` from src/spectralzk/tiling.py (lines 14-28): a 2D point with
structural equality and hash on `(x, y)`. -/
structure Point where
  x : Int
  y : Int
  deriving DecidableEq, Repr

/-- Python `dict[key]` / `key in dict` lookup over the association-list model
of a dict.  Keys are unique in every dict the code builds, so first-match
lookup agrees with the dict. -/
def dictLookup (tiles : List (Point × String)) (p : Point) : Option String :=
  match tiles with
  | [] => none
  | (q, t) :: rest => if q = p then some t else dictLookup rest p

/-- Constant `Tiling.TILE_TYPES` (tiling.py line 41). -/
def TILE_TYPES : List String := ["A", "B", "C", "D", "E", "F"]

/-- Function `Tiling.get_tile_type` (tiling.py lines 53-78).  `hashPos pos.x pos.y`
stands for `int(self._hash_position(pos.x, pos.y)[:8], 16)` (a 32-bit value;
any `Nat` is allowed here, which only widens the quantification).  The Python
code guards both neighbor rules by `if neighbors:`; the guard is distributed
into each rule's condition, which is equivalent since both conditions are
false on an empty list. -/
def getTileType (hashPos : Int → Int → Nat) (pos : Point)
    (neighbors : List String) : String :=
  let baseValue := hashPos pos.x pos.y
  -- rule 1: if surrounded by >= 3 identical neighbor labels, bump the value
  let v1 :=
    if neighbors ≠ [] ∧ 3 ≤ neighbors.length ∧
        ∀ n ∈ neighbors, n = neighbors.headD ("")
    then baseValue + 1 else baseValue
  -- rule 2 (checked against the same original list, not elseif):
  -- "A" and "B" together force the value into {2, 3} ("C" or "D")
  let v2 :=
    if neighbors ≠ [] ∧ ("A") ∈ neighbors ∧ ("B") ∈ neighbors
    then v1 % 2 + 2 else v1
  TILE_TYPES.getD (v2 % TILE_TYPES.length) ("")

/-- The default `radius=1.5` of `Tiling.get_neighbors`, the radius used at
every call site in the repository, as the exact rational `3/2`. -/
def defaultRadius : ℚ := ⟨3, 2, by decide, by decide⟩

/-- Function `Tiling.get_neighbors` (tiling.py lines 80-94): the 8 surrounding integer
offsets filtered by Euclidean distance.  The source compares
`center.distance_to(neighbor) <= radius`, i.e. `sqrt(dx² + dy²) <= radius`;
for a rational radius (with its positive denominator) this inequality is
equivalent to `0 ≤ radius.num ∧ (dx² + dy²) * radius.den² ≤ radius.num²`,
which is how it is written here so that the whole test lives in `Int`. -/
def getNeighbors (center : Point) (radius : ℚ) : List Point :=
  ([-1, 0, 1] : List Int).flatMap fun dx =>
    ([-1, 0, 1] : List Int).flatMap fun dy =>
      if dx = 0 ∧ dy = 0 then []
      else if 0 ≤ radius.num ∧
          (dx * dx + dy * dy) * ((radius.den : Int) * (radius.den : Int)) ≤
            radius.num * radius.num then
        [⟨center.x + dx, center.y + dy⟩]
      else []

/-- Function `Tiling.generate_region` (tiling.py lines 96-131), with the default
origin made explicit: row-major (y outer, x inner) generation, each cell's
neighbor labels collected from already placed tiles in neighbor order. -/
def generateRegion (hashPos : Int → Int → Nat) (width height : Nat)
    (origin : Point) : List (Point × String) :=
  (List.range height).foldl (fun tiles (y : Nat) =>
    (List.range width).foldl (fun tiles (x : Nat) =>
      let pos : Point := ⟨origin.x + x, origin.y + y⟩
      let neighborTypes :=
        (getNeighbors pos defaultRadius).filterMap (fun n => dictLookup tiles n)
      tiles ++ [(pos, getTileType hashPos pos neighborTypes)]) tiles) []

/-- Dataclass `Instance` from src/spectralzk/protocol.py (lines 18-23). -/
structure Instance where
  tiles : List (Point × String)
  size : Nat
  seed : Int
  deriving DecidableEq, Repr

/-- Method `SpectralProtocol.create_instance` (protocol.py lines 69-80). -/
def createInstance (hashPos : Int → Int → Nat) (seed : Int)
    (size : Nat) : Instance :=
  ⟨generateRegion hashPos size size ⟨0, 0⟩, size, seed⟩

/-- The domain of values the code commits to, covering the Python values
actually passed to `Commitment.create` in the repository (a list of
`(str(Point), tile)` pairs from `generate_witness`, plain strings and, as
used by the tests, other JSON-serializable scalars such as integers). -/
inductive Value where
  | str : String → Value
  | int : Int → Value
  | pairList : List (String × String) → Value
  deriving DecidableEq, Repr

/-- JSON string-character escaping as performed by `json.dumps` for the
character set the repository ever serializes (printable ASCII): backslash and
double quote are escaped, every other character passes through. -/
def jsonEscape (s : String) : String :=
  String.mk (s.data.flatMap fun c =>
    if c = '\\' then ['\\', '\\']
    else if c = '"' then ['\\', '"']
    else [c])

/-- A JSON string literal: `json.dumps` of a Python `str`. -/
def jsonString (s : String) : String := "\"" ++ jsonEscape s ++ "\""

/-- The serialization step of `Commitment.create` (commitment.py lines
41-44): strings pass through unchanged, every other value goes through
`json.dumps(value, sort_keys=True, default=str)` (for an integer the decimal
rendering, for a list of string pairs a JSON array of two-element arrays,
with `, ` separators as produced by `json.dumps`). -/
def serializeValue : Value → String
  | Value.str s => s
  | Value.int n => toString n
  | Value.pairList l =>
      "[" ++ String.intercalate (", ")
        (l.map (fun p => "[" ++ jsonString p.1 ++ ", " ++ jsonString p.2 ++ "]"))
      ++ "]"

/-- Method `Commitment.create` (commitment.py lines 25-50) with the nonce draw made
explicit (`nonce` stands for the supplied nonce, or the fresh
`secrets.token_hex(16)` when the caller passed none) and the digest
abstract: `sha256 data` stands for `hashlib.sha256(data.encode()).hexdigest()`. -/
def Commitment.create (sha256 : String → String) (value : Value)
    (nonce : String) : String × String :=
  (sha256 (serializeValue value ++ "||" ++ nonce), nonce)

/-- Method `Commitment.verify` (commitment.py lines 52-66): recompute the
commitment with the claimed value and nonce and compare strings. -/
def Commitment.verify (sha256 : String → String) (commitment : String)
    (value : Value) (nonce : String) : Bool :=
  commitment == (Commitment.create sha256 value nonce).1

/-- Dataclass `Witness` (protocol.py lines 26-31). -/
structure Witness where
  path : List (Point × String)
  commitment : String
  nonce : String
  deriving DecidableEq, Repr

/-- Dataclass `Challenge` (protocol.py lines 34-39). -/
structure Challenge where
  challenge_id : String
  positions : List Int
  commitment : String
  deriving DecidableEq, Repr

/-- Dataclass `Response` (protocol.py lines 42-49).  A revealed step is
`(index, Point | None, tile | None)`; `path_length` is a Python int, kept as
`Int` so that the verifier's `path_length < 0` check is represented. -/
structure Response where
  challenge_id : String
  revealed_steps : List (Int × Option Point × Option String)
  path_length : Int
  commitment : String
  nonce : String
  deriving DecidableEq, Repr

/-- The comparison `sorted(valid_next, key=lambda p: (p.x, p.y))` uses:
lexicographic order on `(x, y)`. -/
def pointLex (a b : Point) : Prop :=
  a.x < b.x ∨ (a.x = b.x ∧ a.y ≤ b.y)

instance : DecidableRel pointLex := fun _ _ =>
  inferInstanceAs (Decidable (_ ∨ _))

/-- Method `SpectralProtocol._find_path` (protocol.py lines 214-241), with the
`for _ in range(length)` loop unrolled into fuel recursion: stop on a
position outside the tiling or already visited, otherwise record the step,
and continue at the lexicographically smallest unvisited in-tiling neighbor
if one exists.  Python's `list.sort` is a stable sort, as is
`List.insertionSort`, and two stable sorts of the same list under the same
total preorder return the same list, so taking the head of the insertion
sort is exactly `valid_next[0]` after `valid_next.sort(...)`. -/
def findPathAux (tiles : List (Point × String)) (current : Point)
    (fuel : Nat) (visited : List Point) : List (Point × String) :=
  match fuel with
  | 0 => []
  | fuel' + 1 =>
    match dictLookup tiles current with
    | none => []
    | some t =>
      if current ∈ visited then []
      else
        let visited' := current :: visited
        let validNext := (getNeighbors current defaultRadius).filter
          (fun n => (dictLookup tiles n).isSome && decide (n ∉ visited'))
        match (List.insertionSort pointLex validNext).head? with
        | none => [(current, t)]
        | some next => (current, t) :: findPathAux tiles next fuel' visited'

/-- Entry point of `SpectralProtocol._find_path`: empty path, empty visited
set, `length` loop iterations. -/
def findPath (tiles : List (Point × String)) (start : Point)
    (length : Nat) : List (Point × String) :=
  findPathAux tiles start length []

/-- Python `str(Point(x, y))`: the dataclass repr of a `Point` whose components are
Python ints (every point the protocol builds has int components). -/
def pointStr (p : Point) : String :=
  "Point(x=" ++ toString p.x ++ ", y=" ++ toString p.y ++ ")"

/-- Method `SpectralProtocol.generate_witness` (protocol.py lines 82-108): walk the
tiling deterministically from `start` (the randomly drawn start, when the
caller passed none, is supplied explicitly), commit to the list of
`(str(pos), tile)` pairs. -/
def generateWitness (sha256 : String → String) (inst : Instance)
    (pathLength : Nat) (start : Point) (nonce : String) : Witness :=
  let path := findPath inst.tiles start pathLength
  let pathData := path.map (fun s => (pointStr s.1, s.2))
  let cn := Commitment.create sha256 (Value.pairList pathData) nonce
  ⟨path, cn.1, cn.2⟩

/-- Method `SpectralProtocol.create_challenge` (protocol.py lines 110-140).
`challengeId` stands for the fresh `secrets.token_hex(8)`, and `draws` for
the stream of `secrets.randbelow(max_positions)` outcomes, of which the loop
consumes exactly `min num_challenges max_positions`; a drawn position already
present is skipped (the loop body appends only unseen values), and the
collected positions are sorted ascending (`sorted` is a stable sort and so is
`List.insertionSort`, so they return the same list). -/
def createChallenge (inst : Instance) (commitment : String)
    (numChallenges : Nat) (challengeId : String) (draws : List Int) : Challenge :=
  let maxPositions := inst.size * inst.size
  let positions := (draws.take (min numChallenges maxPositions)).foldl
    (fun ps pos => if pos ∈ ps then ps else ps ++ [pos]) []
  ⟨challengeId, List.insertionSort (· ≤ ·) positions, commitment⟩

/-- Python list indexing `a[i]` under a prior `i < len(a)` guard: a
nonnegative index reads directly, a negative index wraps once from the end
(an index below `-len(a)` raises `IndexError` in Python; that branch, never
reached by any caller in the repository, is modelled as `none`). -/
def pyGet (l : List (Point × String)) (i : Int) : Option (Point × String) :=
  if 0 ≤ i then l.get? i.toNat else l.get? (l.length + i).toNat

/-- Method `SpectralProtocol.respond_to_challenge` (protocol.py lines 142-169):
for each challenged index, reveal the path step when the index is below the
path length, otherwise a `(None, None)` pair; report the path length and copy
commitment and nonce from the witness. -/
def respondToChallenge (w : Witness) (ch : Challenge) : Response :=
  let revealed := ch.positions.map (fun posIdx =>
    if posIdx < (w.path.length : Int) then
      match pyGet w.path posIdx with
      | some s => (posIdx, some s.1, some s.2)
      | none => (posIdx, (none : Option Point), (none : Option String))
    else (posIdx, none, none))
  ⟨ch.challenge_id, revealed, (w.path.length : Int), w.commitment, w.nonce⟩

/-- The verifier's `revealed_map` (protocol.py line 185): a dict built from
`revealed_steps` keyed by index, so for each index the last occurrence wins. -/
def lookupLastStep (steps : List (Int × Option Point × Option String))
    (idx : Int) : Option (Option Point × Option String) :=
  ((steps.filter (fun s => s.1 == idx)).getLast?).map (fun s => s.2)

/-- The per-step value checks of `verify_response` (protocol.py lines
192-197 and 204-209): the revealed point and tile must both be present, the
point must be a key of `instance.tiles`, and the stored tile must equal the
claimed tile. -/
def stepOk (inst : Instance) (v : Option Point × Option String) : Bool :=
  match v with
  | (some p, some t) => dictLookup inst.tiles p == some t
  | _ => false

/-- Method `SpectralProtocol.verify_response` (protocol.py lines 171-212) as the
conjunction of its checks (the source returns `False` at the first failed
check; the conjunction has the same value).  The second loop iterates over
`revealed_map.items()`, i.e. over the distinct revealed indices each with its
last-written value; checking every entry of `revealed_steps` against its
index's last-written value is the same conjunction, since every index in the
map labels at least one entry and repeated conjuncts are idempotent. -/
def verifyResponse (inst : Instance) (ch : Challenge) (r : Response) : Bool :=
  (r.challenge_id == ch.challenge_id) &&
  (r.commitment == ch.commitment) &&
  (ch.positions.all fun posIdx =>
    if posIdx < r.path_length then
      match lookupLastStep r.revealed_steps posIdx with
      | none => false
      | some v => stepOk inst v
    else true) &&
  (r.revealed_steps.all fun s =>
    if s.1 < r.path_length then
      decide (s.1 ∈ ch.positions) &&
      (match lookupLastStep r.revealed_steps s.1 with
       | none => false
       | some v => stepOk inst v)
    else true) &&
  (decide (0 ≤ r.path_length) && decide (r.path_length ≤ (inst.tiles.length : Int)))

/-! ## Helper lemmas -/

theorem dictLookup_eq_none_iff (tiles : List (Point × String)) (p : Point) :
    dictLookup tiles p = none ↔ p ∉ tiles.map Prod.fst := by
  induction tiles with
  | nil => simp [dictLookup]
  | cons e rest ih =>
    obtain ⟨q, t⟩ := e
    by_cases h : q = p
    · subst h
      simp [dictLookup]
    · simp [dictLookup, h, ih, Ne.symm h]

theorem dictLookup_mem_keys {tiles : List (Point × String)} {p : Point}
    {t : String} (h : dictLookup tiles p = some t) : p ∈ tiles.map Prod.fst := by
  by_contra hmem
  rw [← dictLookup_eq_none_iff] at hmem
  rw [hmem] at h
  exact Option.noConfusion h

/-- One-step unfolding of `findPathAux` at positive fuel. -/
theorem findPathAux_succ (tiles : List (Point × String)) (current : Point)
    (n : Nat) (visited : List Point) :
    findPathAux tiles current (n + 1) visited =
      match dictLookup tiles current with
      | none => []
      | some t =>
        if current ∈ visited then []
        else
          match (List.insertionSort pointLex
              ((getNeighbors current defaultRadius).filter
                (fun m => (dictLookup tiles m).isSome &&
                  decide (m ∉ current :: visited)))).head? with
          | none => [(current, t)]
          | some next => (current, t) :: findPathAux tiles next n (current :: visited) :=
  rfl

/-- The core invariant of `_find_path`: every recorded step is a genuine
entry of the tiling, the recorded positions are pairwise distinct and
disjoint from the visited set, and at most one step is recorded per loop
iteration. -/
theorem findPathAux_spec :
    ∀ (fuel : Nat) (tiles : List (Point × String)) (current : Point)
      (visited : List Point),
    (∀ s ∈ findPathAux tiles current fuel visited,
        dictLookup tiles s.1 = some s.2) ∧
    ((findPathAux tiles current fuel visited).map Prod.fst).Nodup ∧
    (∀ p ∈ (findPathAux tiles current fuel visited).map Prod.fst,
        p ∉ visited) ∧
    (findPathAux tiles current fuel visited).length ≤ fuel := by
  intro fuel
  induction fuel with
  | zero =>
    intro tiles current visited
    simp [findPathAux]
  | succ n ih =>
    intro tiles current visited
    rcases hcur : dictLookup tiles current with _ | t
    · rw [findPathAux_succ, hcur]
      simp
    · by_cases hv : current ∈ visited
      · rw [findPathAux_succ, hcur]
        dsimp only
        rw [if_pos hv]
        simp
      · rcases hnext :
          (List.insertionSort pointLex
            ((getNeighbors current defaultRadius).filter
              (fun m => (dictLookup tiles m).isSome &&
                decide (m ∉ current :: visited)))).head? with _ | next
        · rw [findPathAux_succ, hcur]
          dsimp only
          rw [if_neg hv, hnext]
          refine ⟨?_, by simp, ?_, by simp⟩
          · intro s hs
            rw [List.mem_singleton] at hs
            subst hs
            exact hcur
          · intro p hp
            rw [List.map_singleton, List.mem_singleton] at hp
            subst hp
            exact hv
        · rw [findPathAux_succ, hcur]
          dsimp only
          rw [if_neg hv, hnext]
          obtain ⟨ihValid, ihNodup, ihFresh, ihLen⟩ :=
            ih tiles next (current :: visited)
          refine ⟨?_, ?_, ?_, ?_⟩
          · intro s hs
            rcases List.mem_cons.mp hs with h | h
            · subst h; exact hcur
            · exact ihValid s h
          · simp only [List.map_cons, List.nodup_cons]
            refine ⟨?_, ihNodup⟩
            intro hmem
            exact (ihFresh current hmem) (List.mem_cons_self current visited)
          · simp only [List.map_cons, List.mem_cons]
            rintro p (rfl | hp)
            · exact hv
            · intro hpv
              exact (ihFresh p hp) (List.mem_cons_of_mem current hpv)
          · simpa using Nat.succ_le_succ ihLen

theorem findPath_valid (tiles : List (Point × String)) (start : Point)
    (len : Nat) :
    ∀ s ∈ findPath tiles start len, dictLookup tiles s.1 = some s.2 :=
  (findPathAux_spec len tiles start []).1

theorem findPath_nodup (tiles : List (Point × String)) (start : Point)
    (len : Nat) : ((findPath tiles start len).map Prod.fst).Nodup :=
  (findPathAux_spec len tiles start []).2.1

theorem findPath_length_le_fuel (tiles : List (Point × String)) (start : Point)
    (len : Nat) : (findPath tiles start len).length ≤ len :=
  (findPathAux_spec len tiles start []).2.2.2

theorem findPath_length_le_tiles (tiles : List (Point × String)) (start : Point)
    (len : Nat) : (findPath tiles start len).length ≤ tiles.length := by
  classical
  have hnd := findPath_nodup tiles start len
  have hsub : ∀ p ∈ (findPath tiles start len).map Prod.fst,
      p ∈ tiles.map Prod.fst := by
    intro p hp
    obtain ⟨s, hs, rfl⟩ := List.mem_map.mp hp
    exact dictLookup_mem_keys (findPath_valid tiles start len s hs)
  calc (findPath tiles start len).length
      = ((findPath tiles start len).map Prod.fst).length :=
        (List.length_map _ _).symm
    _ = ((findPath tiles start len).map Prod.fst).toFinset.card :=
        (List.toFinset_card_of_nodup hnd).symm
    _ ≤ (tiles.map Prod.fst).toFinset.card := by
        apply Finset.card_le_card
        intro p hp
        rw [List.mem_toFinset] at hp ⊢
        exact hsub p hp
    _ ≤ (tiles.map Prod.fst).length := List.toFinset_card_le _
    _ = tiles.length := List.length_map _ _

theorem findPath_eq_nil_of_not_mem {tiles : List (Point × String)}
    {start : Point} (h : start ∉ tiles.map Prod.fst) (len : Nat) :
    findPath tiles start len = [] := by
  cases len with
  | zero => rfl
  | succ n =>
    rw [findPath, findPathAux, (dictLookup_eq_none_iff tiles start).mpr h]

/-! ## Claim theorems: witness path (C7, C10), nonce noninterference (C9),
tile rules (C5) -/

/-- C7: for every instance, every path length and every start point, the
path of the witness returned by `generate_witness` contains no repeated
point, and every `(point, label)` entry of the path is a genuine entry of
`instance.tiles` (the point is a key and the label is its stored tile). -/
theorem generateWitness_path_invariant (sha256 : String → String)
    (inst : Instance) (pathLength : Nat) (start : Point) (nonce : String) :
    (((generateWitness sha256 inst pathLength start nonce).path.map
        Prod.fst).Nodup) ∧
    (∀ s ∈ (generateWitness sha256 inst pathLength start nonce).path,
        dictLookup inst.tiles s.1 = some s.2) := by
  have hpath : (generateWitness sha256 inst pathLength start nonce).path
      = findPath inst.tiles start pathLength := rfl
  rw [hpath]
  exact ⟨findPath_nodup inst.tiles start pathLength,
    findPath_valid inst.tiles start pathLength⟩

/-- C10: for every tiles mapping, start point and requested length, the
path returned by `_find_path` (and hence the witness path of
`generate_witness`) has length at most `min length (number of tiles)` and is
empty whenever the start is not a key of the tiles mapping. -/
theorem findPath_length_bound (tiles : List (Point × String)) (start : Point)
    (L : Nat) (sha256 : String → String) (inst : Instance) (nonce : String) :
    ((findPath tiles start L).length ≤ min L tiles.length) ∧
    (start ∉ tiles.map Prod.fst → findPath tiles start L = []) ∧
    ((generateWitness sha256 inst L start nonce).path.length ≤
        min L inst.tiles.length) ∧
    (start ∉ inst.tiles.map Prod.fst →
        (generateWitness sha256 inst L start nonce).path = []) := by
  have hpath : (generateWitness sha256 inst L start nonce).path
      = findPath inst.tiles start L := rfl
  refine ⟨le_min (findPath_length_le_fuel tiles start L)
      (findPath_length_le_tiles tiles start L),
    fun h => findPath_eq_nil_of_not_mem h L, ?_, ?_⟩
  · rw [hpath]
    exact le_min (findPath_length_le_fuel inst.tiles start L)
      (findPath_length_le_tiles inst.tiles start L)
  · intro h
    rw [hpath]
    exact findPath_eq_nil_of_not_mem h L

/-- C9: the verdict of `verify_response` never depends on the response's
nonce field: two responses identical except for their nonce receive the same
verdict (verification never invokes the commitment scheme's `verify`). -/
theorem verifyResponse_ignores_nonce (inst : Instance) (ch : Challenge)
    (cid : String) (steps : List (Int × Option Point × Option String))
    (pl : Int) (com n1 n2 : String) :
    verifyResponse inst ch ⟨cid, steps, pl, com, n1⟩ =
    verifyResponse inst ch ⟨cid, steps, pl, com, n2⟩ := rfl

/-- C5: `get_tile_type` composes its two neighbor rules exactly as
described: rule 1 (three or more identical neighbor labels) increments the
hash-derived base value, rule 2 is then checked independently against the
same original neighbor list (not elseif) and, when the list contains both
"A" and "B", overwrites the value with `(value so far) % 2 + 2`; the result
is the alphabet entry at the final value mod 6, and whenever rule 2 fires
the resulting label is "C" or "D". -/
theorem getTileType_rule_composition (hashPos : Int → Int → Nat) (pos : Point)
    (neighbors : List String) :
    (getTileType hashPos pos neighbors =
      TILE_TYPES.getD
        ((if ("A") ∈ neighbors ∧ ("B") ∈ neighbors then
            (if 3 ≤ neighbors.length ∧
                ∀ n ∈ neighbors, n = neighbors.headD ("")
             then hashPos pos.x pos.y + 1 else hashPos pos.x pos.y) % 2 + 2
          else
            (if 3 ≤ neighbors.length ∧
                ∀ n ∈ neighbors, n = neighbors.headD ("")
             then hashPos pos.x pos.y + 1 else hashPos pos.x pos.y)) % 6)
        ("")) ∧
    (("A") ∈ neighbors ∧ ("B") ∈ neighbors →
      getTileType hashPos pos neighbors = "C" ∨
      getTileType hashPos pos neighbors = "D") := by
  constructor
  · by_cases hemp : neighbors = []
    · subst hemp
      simp [getTileType, TILE_TYPES]
    · simp [getTileType, TILE_TYPES, hemp]
  · intro hab
    have hemp : neighbors ≠ [] := by
      rintro rfl
      exact absurd hab.1 (List.not_mem_nil _)
    simp only [getTileType, hemp, ne_eq, not_false_iff, true_and, hab.1,
      hab.2, and_self, if_true]
    rcases Nat.mod_two_eq_zero_or_one
        (if 3 ≤ neighbors.length ∧ ∀ n ∈ neighbors, n = neighbors.headD ("")
         then hashPos pos.x pos.y + 1 else hashPos pos.x pos.y) with h | h <;>
      rw [h]
    · left; rfl
    · right; rfl

/-- Concrete check for `getTileType_rule_composition`: with neighbor list
`["A", "B", "A"]` rule 2's guard holds and the resulting label is "C" or
"D". -/
theorem getTileType_rule_composition_check :
    (("A") ∈ ["A", "B", "A"] ∧ ("B") ∈ ["A", "B", "A"]) ∧
    (getTileType (fun _ _ => 7) ⟨0, 0⟩ ["A", "B", "A"] = "C" ∨
      getTileType (fun _ _ => 7) ⟨0, 0⟩ ["A", "B", "A"] = "D") :=
  ⟨by decide,
    (getTileType_rule_composition (fun _ _ => 7) ⟨0, 0⟩ ["A", "B", "A"]).2
      (by decide)⟩

/-! ## Region coverage (C8) -/

/-- Keys appended by one row of `generate_region`: the fold over the x
coordinates appends exactly one entry per x, keyed by the cell position,
whatever the already-placed tiles are. -/
theorem map_fst_generateRegion_row (hashPos : Int → Int → Nat)
    (origin : Point) (y : Nat) :
    ∀ (xs : List Nat) (acc : List (Point × String)),
    ((xs.foldl (fun tiles (x : Nat) =>
        let pos : Point := ⟨origin.x + x, origin.y + y⟩
        let neighborTypes :=
          (getNeighbors pos defaultRadius).filterMap (fun n => dictLookup tiles n)
        tiles ++ [(pos, getTileType hashPos pos neighborTypes)]) acc).map
      Prod.fst)
      = acc.map Prod.fst ++
        xs.map (fun (x : Nat) => (⟨origin.x + x, origin.y + y⟩ : Point)) := by
  intro xs
  induction xs with
  | nil => intro acc; simp
  | cons a as ih =>
    intro acc
    simp only [List.foldl_cons]
    rw [ih]
    simp

/-- The keys of `generate_region`: one per grid cell, row-major. -/
theorem map_fst_generateRegion (hashPos : Int → Int → Nat) (w h : Nat)
    (origin : Point) :
    (generateRegion hashPos w h origin).map Prod.fst
      = (List.range h).flatMap
          (fun y => (List.range w).map
            (fun (x : Nat) => (⟨origin.x + x, origin.y + y⟩ : Point))) := by
  suffices H : ∀ (ys : List Nat) (acc : List (Point × String)),
      ((ys.foldl (fun tiles (y : Nat) =>
          (List.range w).foldl (fun tiles (x : Nat) =>
            let pos : Point := ⟨origin.x + x, origin.y + y⟩
            let neighborTypes :=
              (getNeighbors pos defaultRadius).filterMap
                (fun n => dictLookup tiles n)
            tiles ++ [(pos, getTileType hashPos pos neighborTypes)]) tiles)
        acc).map Prod.fst)
        = acc.map Prod.fst ++
          ys.flatMap (fun y => (List.range w).map
            (fun (x : Nat) => (⟨origin.x + x, origin.y + y⟩ : Point))) by
    simpa [generateRegion] using H (List.range h) []
  intro ys
  induction ys with
  | nil => intro acc; simp
  | cons y ys ih =>
    intro acc
    simp only [List.foldl_cons]
    rw [ih, map_fst_generateRegion_row hashPos origin y (List.range w) acc]
    simp

theorem generateRegion_keys_nodup (hashPos : Int → Int → Nat) (w h : Nat)
    (origin : Point) :
    ((generateRegion hashPos w h origin).map Prod.fst).Nodup := by
  rw [map_fst_generateRegion]
  rw [List.nodup_flatMap]
  constructor
  · intro y _
    refine List.Nodup.map ?_ (List.nodup_range w)
    intro a b hab
    have := congrArg Point.x hab
    simp only at this
    omega
  · refine List.Pairwise.imp ?_ (List.pairwise_lt_range h)
    intro y y' hyy'
    intro p hp hp'
    obtain ⟨a, _, rfl⟩ := List.mem_map.mp hp
    obtain ⟨b, _, hb⟩ := List.mem_map.mp hp'
    have := congrArg Point.y hb
    simp only at this
    omega

theorem generateRegion_length (hashPos : Int → Int → Nat) (w h : Nat)
    (origin : Point) : (generateRegion hashPos w h origin).length = w * h := by
  have hkeys := congrArg List.length (map_fst_generateRegion hashPos w h origin)
  rw [List.length_map] at hkeys
  rw [hkeys, List.length_flatMap]
  simp only [List.map_map, Function.comp_def, List.length_map,
    List.length_range]
  rw [List.map_const', List.sum_replicate, smul_eq_mul, Nat.mul_comm,
    List.length_range]

theorem mem_generateRegion_keys (hashPos : Int → Int → Nat) (w h : Nat)
    (p : Point) :
    p ∈ (generateRegion hashPos w h ⟨0, 0⟩).map Prod.fst ↔
      (0 ≤ p.x ∧ p.x < (w : Int) ∧ 0 ≤ p.y ∧ p.y < (h : Int)) := by
  rw [map_fst_generateRegion]
  simp only [List.mem_flatMap, List.mem_map, List.mem_range]
  constructor
  · rintro ⟨y, hy, x, hx, rfl⟩
    refine ⟨?_, ?_, ?_, ?_⟩ <;> simp <;> omega
  · rintro ⟨h1, h2, h3, h4⟩
    obtain ⟨px, py⟩ := p
    simp only at h1 h2 h3 h4
    refine ⟨py.toNat, by omega, px.toNat, by omega, ?_⟩
    simp only [Point.mk.injEq]
    constructor <;> omega

/-- C8: `generate_region(w, h)` with the default origin returns a mapping
with exactly `w*h` entries (keys pairwise distinct) whose key set is exactly
the integer grid `[0, w) × [0, h)`; consequently the instance returned by
`create_instance(size)` has exactly `size*size` tiles. -/
theorem generateRegion_coverage (hashPos : Int → Int → Nat) (w h : Nat)
    (seed : Int) (size : Nat) :
    ((generateRegion hashPos w h ⟨0, 0⟩).length = w * h) ∧
    (((generateRegion hashPos w h ⟨0, 0⟩).map Prod.fst).Nodup) ∧
    (∀ p : Point, (∃ t, (p, t) ∈ generateRegion hashPos w h ⟨0, 0⟩) ↔
        (0 ≤ p.x ∧ p.x < (w : Int) ∧ 0 ≤ p.y ∧ p.y < (h : Int))) ∧
    ((createInstance hashPos seed size).tiles.length = size * size) := by
  refine ⟨generateRegion_length hashPos w h ⟨0, 0⟩,
    generateRegion_keys_nodup hashPos w h ⟨0, 0⟩, ?_, ?_⟩
  · intro p
    rw [← mem_generateRegion_keys hashPos w h p]
    constructor
    · rintro ⟨t, ht⟩
      exact List.mem_map.mpr ⟨(p, t), ht, rfl⟩
    · intro hp
      obtain ⟨⟨q, t⟩, hqt, hq⟩ := List.mem_map.mp hp
      cases hq
      exact ⟨t, hqt⟩
  · show (generateRegion hashPos size size ⟨0, 0⟩).length = size * size
    exact generateRegion_length hashPos size size ⟨0, 0⟩

/-! ## Challenge positions (C4) -/

theorem foldlDedup_nodup :
    ∀ (ds acc : List Int), acc.Nodup →
    (ds.foldl (fun ps pos => if pos ∈ ps then ps else ps ++ [pos]) acc).Nodup := by
  intro ds
  induction ds with
  | nil => intro acc h; exact h
  | cons d ds ih =>
    intro acc h
    simp only [List.foldl_cons]
    by_cases hd : d ∈ acc
    · rw [if_pos hd]
      exact ih acc h
    · rw [if_neg hd]
      refine ih (acc ++ [d]) ?_
      simp [List.nodup_append, h, hd]

theorem foldlDedup_mem :
    ∀ (ds acc : List Int) (x : Int),
    x ∈ ds.foldl (fun ps pos => if pos ∈ ps then ps else ps ++ [pos]) acc ↔
      x ∈ acc ∨ x ∈ ds := by
  intro ds
  induction ds with
  | nil => intro acc x; simp
  | cons d ds ih =>
    intro acc x
    simp only [List.foldl_cons]
    by_cases hd : d ∈ acc
    · rw [if_pos hd, ih]
      constructor
      · rintro (h | h)
        · exact Or.inl h
        · exact Or.inr (List.mem_cons_of_mem d h)
      · rintro (h | h)
        · exact Or.inl h
        · rcases List.mem_cons.mp h with rfl | h2
          · exact Or.inl hd
          · exact Or.inr h2
    · rw [if_neg hd, ih]
      simp only [List.mem_append, List.mem_singleton, List.mem_cons,
        List.not_mem_nil, or_false]
      rw [or_assoc]

theorem createChallenge_positions (inst : Instance) (com : String) (num : Nat)
    (cid : String) (draws : List Int) :
    (createChallenge inst com num cid draws).positions =
      List.insertionSort (· ≤ ·)
        ((draws.take (min num (inst.size * inst.size))).foldl
          (fun ps pos => if pos ∈ ps then ps else ps ++ [pos]) []) := rfl

theorem mem_createChallenge_positions (inst : Instance) (com : String)
    (num : Nat) (cid : String) (draws : List Int) (p : Int) :
    p ∈ (createChallenge inst com num cid draws).positions ↔
      p ∈ draws.take (min num (inst.size * inst.size)) := by
  rw [createChallenge_positions, List.mem_insertionSort, foldlDedup_mem]
  simp

theorem createChallenge_positions_nodup (inst : Instance) (com : String)
    (num : Nat) (cid : String) (draws : List Int) :
    (createChallenge inst com num cid draws).positions.Nodup := by
  rw [createChallenge_positions]
  exact (List.perm_insertionSort (· ≤ ·) _).nodup_iff.mpr
    (foldlDedup_nodup _ [] List.nodup_nil)

/-- C4 (amended): for every instance and commitment, every requested number
of challenges, and every outcome of the `randbelow` draws, the returned
challenge copies the challenge id and commitment verbatim, and its positions
are distinct, sorted ascending, in `[0, size*size)`, and are exactly the
distinct values among the `min(numChallenges, size*size)` draws consumed —
hence at most `min(numChallenges, size*size)` positions (a duplicate draw is
silently dropped, not retried, so there may be fewer). -/
theorem createChallenge_spec (inst : Instance) (com : String) (num : Nat)
    (cid : String) (draws : List Int)
    (hdraws : ∀ d ∈ draws, 0 ≤ d ∧ d < ((inst.size * inst.size : Nat) : Int)) :
    (createChallenge inst com num cid draws).challenge_id = cid ∧
    (createChallenge inst com num cid draws).commitment = com ∧
    (createChallenge inst com num cid draws).positions.Nodup ∧
    (createChallenge inst com num cid draws).positions.Sorted (· ≤ ·) ∧
    (∀ p, p ∈ (createChallenge inst com num cid draws).positions ↔
        p ∈ draws.take (min num (inst.size * inst.size))) ∧
    (∀ p ∈ (createChallenge inst com num cid draws).positions,
        0 ≤ p ∧ p < ((inst.size * inst.size : Nat) : Int)) ∧
    (createChallenge inst com num cid draws).positions.length ≤
      min num (inst.size * inst.size) := by
  refine ⟨rfl, rfl, createChallenge_positions_nodup inst com num cid draws,
    ?_, mem_createChallenge_positions inst com num cid draws, ?_, ?_⟩
  · rw [createChallenge_positions]
    exact List.sorted_insertionSort (· ≤ ·) _
  · intro p hp
    have hmem := (mem_createChallenge_positions inst com num cid draws p).mp hp
    exact hdraws p (List.mem_of_mem_take hmem)
  · classical
    have hnd := createChallenge_positions_nodup inst com num cid draws
    have hsub : ∀ p ∈ (createChallenge inst com num cid draws).positions,
        p ∈ draws.take (min num (inst.size * inst.size)) := fun p hp =>
      (mem_createChallenge_positions inst com num cid draws p).mp hp
    calc (createChallenge inst com num cid draws).positions.length
        = (createChallenge inst com num cid draws).positions.toFinset.card :=
          (List.toFinset_card_of_nodup hnd).symm
      _ ≤ (draws.take (min num (inst.size * inst.size))).toFinset.card := by
          apply Finset.card_le_card
          intro p hp
          rw [List.mem_toFinset] at hp ⊢
          exact hsub p hp
      _ ≤ (draws.take (min num (inst.size * inst.size))).length :=
          List.toFinset_card_le _
      _ ≤ min num (inst.size * inst.size) := by
          rw [List.length_take]
          exact min_le_left _ _

/-- Concrete check for `createChallenge_spec` at size 2 with draws
`[0, 2]`. -/
theorem createChallenge_spec_check :
    (createChallenge ⟨[], 2, 0⟩ ("c") 2 ("id") [0, 2]).challenge_id = "id" ∧
    (createChallenge ⟨[], 2, 0⟩ ("c") 2 ("id") [0, 2]).commitment = "c" ∧
    (createChallenge ⟨[], 2, 0⟩ ("c") 2 ("id") [0, 2]).positions.Nodup ∧
    (createChallenge ⟨[], 2, 0⟩ ("c") 2 ("id") [0, 2]).positions.Sorted
      (· ≤ ·) ∧
    (∀ p, p ∈ (createChallenge ⟨[], 2, 0⟩ ("c") 2 ("id") [0, 2]).positions ↔
        p ∈ ([0, 2] : List Int).take
          (min 2 ((⟨[], 2, 0⟩ : Instance).size * (⟨[], 2, 0⟩ : Instance).size))) ∧
    (∀ p ∈ (createChallenge ⟨[], 2, 0⟩ ("c") 2 ("id") [0, 2]).positions,
        0 ≤ p ∧
          p < (((⟨[], 2, 0⟩ : Instance).size *
            (⟨[], 2, 0⟩ : Instance).size : Nat) : Int)) ∧
    (createChallenge ⟨[], 2, 0⟩ ("c") 2 ("id") [0, 2]).positions.length ≤
      min 2 ((⟨[], 2, 0⟩ : Instance).size * (⟨[], 2, 0⟩ : Instance).size) :=
  createChallenge_spec ⟨[], 2, 0⟩ ("c") 2 ("id") [0, 2] (by
    intro d hd
    rcases List.mem_cons.mp hd with rfl | hd
    · exact ⟨by decide, by decide⟩
    · rcases List.mem_cons.mp hd with rfl | hd
      · exact ⟨by decide, by decide⟩
      · exact absurd hd (List.not_mem_nil d))

/-- C4 counterexample: with size 2, two positions requested and both draws
equal to 1 (legitimate `randbelow(4)` outcomes), `create_challenge` returns
the single position `[1]`: the duplicate draw is silently dropped, not
retried, so the positions list has fewer than `min(numChallenges, size*size)`
entries. -/
theorem createChallenge_count_counterexample :
    (∀ d ∈ ([1, 1] : List Int), 0 ≤ d ∧ d < ((2 * 2 : Nat) : Int)) ∧
    (createChallenge ⟨[], 2, 0⟩ ("c") 2 ("id") [1, 1]).positions = [1] ∧
    (createChallenge ⟨[], 2, 0⟩ ("c") 2 ("id") [1, 1]).positions.length ≠
      min 2 (2 * 2) := by
  refine ⟨?_, by decide, by decide⟩
  intro d hd
  rcases List.mem_cons.mp hd with rfl | hd
  · exact ⟨by decide, by decide⟩
  · rcases List.mem_cons.mp hd with rfl | hd
    · exact ⟨by decide, by decide⟩
    · exact absurd hd (List.not_mem_nil d)

/-! ## The verifier's lookup map -/

theorem lookupLastStep_eq_none
    (steps : List (Int × Option Point × Option String)) (idx : Int)
    (h : ∀ s ∈ steps, s.1 ≠ idx) : lookupLastStep steps idx = none := by
  unfold lookupLastStep
  have : steps.filter (fun s => s.1 == idx) = [] := by
    rw [List.filter_eq_nil_iff]
    intro s hs
    simpa using h s hs
  rw [this]
  rfl

theorem lookupLastStep_cons_ne (s : Int × Option Point × Option String)
    (steps : List (Int × Option Point × Option String)) (idx : Int)
    (h : s.1 ≠ idx) :
    lookupLastStep (s :: steps) idx = lookupLastStep steps idx := by
  unfold lookupLastStep
  rw [List.filter_cons, if_neg (by simpa using h)]

/-- Looking up an index of a nodup index list in the steps produced by
mapping a step function over it returns that index's step value. -/
theorem lookupLastStep_map (f : Int → Int × Option Point × Option String)
    (hf : ∀ i, (f i).1 = i) :
    ∀ (ps : List Int), ps.Nodup → ∀ idx ∈ ps,
    lookupLastStep (ps.map f) idx = some (f idx).2 := by
  intro ps
  induction ps with
  | nil => intro _ idx h; exact absurd h (List.not_mem_nil idx)
  | cons a ps ih =>
    intro hnd idx hidx
    obtain ⟨ha, hnd'⟩ := List.nodup_cons.mp hnd
    rcases List.mem_cons.mp hidx with rfl | hmem
    · rw [List.map_cons]
      unfold lookupLastStep
      rw [List.filter_cons, if_pos (by simp [hf idx])]
      have hnil : (ps.map f).filter (fun s => s.1 == idx) = [] := by
        rw [List.filter_eq_nil_iff]
        intro s hs
        obtain ⟨i, hi, rfl⟩ := List.mem_map.mp hs
        simp only [hf i, beq_iff_eq]
        rintro rfl
        exact ha hi
      rw [hnil]
      simp
    · rw [List.map_cons, lookupLastStep_cons_ne (f a) (ps.map f) idx (by
        rw [hf a]
        rintro rfl
        exact ha hmem)]
      exact ih hnd' idx hmem

/-! ## Characterizing the verification predicate -/

theorem stepOk_match_eq_true (inst : Instance)
    (o : Option (Option Point × Option String)) :
    ((match o with
      | none => false
      | some v => stepOk inst v) = true) ↔
      (∃ v, o = some v ∧ stepOk inst v = true) := by
  cases o <;> simp

/-- Predicate `verify_response` returns true exactly when all five of its checks
hold: matching challenge id, matching commitment, every in-bounds challenged
index resolved by the lookup map to a verifiable step, every revealed step
with in-bounds index challenged and verifiable, and the claimed path length
within `[0, len(instance.tiles)]`. -/
theorem verifyResponse_eq_true_iff (inst : Instance) (ch : Challenge)
    (r : Response) :
    verifyResponse inst ch r = true ↔
      (r.challenge_id = ch.challenge_id ∧
       r.commitment = ch.commitment ∧
       (∀ posIdx ∈ ch.positions, posIdx < r.path_length →
         ∃ v, lookupLastStep r.revealed_steps posIdx = some v ∧
           stepOk inst v = true) ∧
       (∀ s ∈ r.revealed_steps, s.1 < r.path_length →
         s.1 ∈ ch.positions ∧
         ∃ v, lookupLastStep r.revealed_steps s.1 = some v ∧
           stepOk inst v = true) ∧
       (0 ≤ r.path_length ∧ r.path_length ≤ (inst.tiles.length : Int))) := by
  have hC : ((ch.positions.all fun posIdx =>
        if posIdx < r.path_length then
          match lookupLastStep r.revealed_steps posIdx with
          | none => false
          | some v => stepOk inst v
        else true) = true) ↔
      (∀ posIdx ∈ ch.positions, posIdx < r.path_length →
        ∃ v, lookupLastStep r.revealed_steps posIdx = some v ∧
          stepOk inst v = true) := by
    rw [List.all_eq_true]
    apply forall_congr'
    intro posIdx
    apply imp_congr_right
    intro _
    by_cases hlt : posIdx < r.path_length
    · rw [if_pos hlt, stepOk_match_eq_true]
      simp [hlt]
    · rw [if_neg hlt]
      simp [hlt]
  have hD : ((r.revealed_steps.all fun s =>
        if s.1 < r.path_length then
          decide (s.1 ∈ ch.positions) &&
          (match lookupLastStep r.revealed_steps s.1 with
           | none => false
           | some v => stepOk inst v)
        else true) = true) ↔
      (∀ s ∈ r.revealed_steps, s.1 < r.path_length →
        s.1 ∈ ch.positions ∧
        ∃ v, lookupLastStep r.revealed_steps s.1 = some v ∧
          stepOk inst v = true) := by
    rw [List.all_eq_true]
    apply forall_congr'
    intro s
    apply imp_congr_right
    intro _
    by_cases hlt : s.1 < r.path_length
    · rw [if_pos hlt, Bool.and_eq_true, decide_eq_true_eq,
        stepOk_match_eq_true]
      simp [hlt]
    · rw [if_neg hlt]
      simp [hlt]
  unfold verifyResponse
  simp only [Bool.and_eq_true, beq_iff_eq, decide_eq_true_eq]
  rw [hC, hD]
  tauto

/-- C2: with matching challenge id and commitment and in-range path length,
`verify_response` returns false whenever the response omits an in-bounds
challenged index entirely, or contains a revealed step whose index is in
bounds but was not challenged. -/
theorem verifyResponse_coverage_violation (inst : Instance) (ch : Challenge)
    (r : Response)
    (_hid : r.challenge_id = ch.challenge_id)
    (_hcom : r.commitment = ch.commitment)
    (_hpl0 : 0 ≤ r.path_length)
    (_hpl : r.path_length ≤ (inst.tiles.length : Int))
    (hbad :
      (∃ idx ∈ ch.positions, idx < r.path_length ∧
        ∀ s ∈ r.revealed_steps, s.1 ≠ idx) ∨
      (∃ s ∈ r.revealed_steps, s.1 < r.path_length ∧ s.1 ∉ ch.positions)) :
    verifyResponse inst ch r = false := by
  rw [Bool.eq_false_iff]
  intro hver
  rw [verifyResponse_eq_true_iff] at hver
  obtain ⟨_, _, hc3, hc4, _⟩ := hver
  rcases hbad with ⟨idx, hmem, hlt, hnone⟩ | ⟨s, hs, hlt, hnot⟩
  · obtain ⟨v, hv, _⟩ := hc3 idx hmem hlt
    rw [lookupLastStep_eq_none r.revealed_steps idx hnone] at hv
    exact Option.noConfusion hv
  · exact hnot (hc4 s hs hlt).1

/-- Concrete check for `verifyResponse_coverage_violation`: a response with
matching id and commitment and path length 1 that reveals nothing, although
index 0 was challenged and is in bounds, is rejected. -/
theorem verifyResponse_coverage_violation_check :
    ((0 : Int) ∈ ([0] : List Int) ∧ (0 : Int) < 1) ∧
    verifyResponse ⟨[(⟨0, 0⟩, "A")], 1, 0⟩ ⟨"id", [0], "c"⟩
      ⟨"id", [], 1, "c", "n"⟩ = false :=
  ⟨⟨by decide, by decide⟩,
    verifyResponse_coverage_violation ⟨[(⟨0, 0⟩, "A")], 1, 0⟩
      ⟨"id", [0], "c"⟩ ⟨"id", [], 1, "c", "n"⟩ rfl rfl (by decide) (by decide)
      (Or.inl ⟨0, by decide, by decide,
        fun s hs => absurd hs (List.not_mem_nil s)⟩)⟩

/-- C3 (amended): a response accepted by `verify_response` has at least one
`revealed_steps` entry for every in-bounds index of `challenge.positions`,
and every entry with in-bounds index has a challenged index; but coverage is
checked through the deduplicated lookup map, so duplicate entries for the
same in-bounds index are not rejected (see the counterexample). -/
theorem verifyResponse_accepted_coverage (inst : Instance) (ch : Challenge)
    (r : Response) (hacc : verifyResponse inst ch r = true) :
    (∀ idx ∈ ch.positions, idx < r.path_length →
      ∃ s ∈ r.revealed_steps, s.1 = idx) ∧
    (∀ s ∈ r.revealed_steps, s.1 < r.path_length → s.1 ∈ ch.positions) := by
  rw [verifyResponse_eq_true_iff] at hacc
  obtain ⟨_, _, hc3, hc4, _⟩ := hacc
  constructor
  · intro idx hmem hlt
    obtain ⟨v, hv, _⟩ := hc3 idx hmem hlt
    by_contra hnone
    push_neg at hnone
    rw [lookupLastStep_eq_none r.revealed_steps idx hnone] at hv
    exact Option.noConfusion hv
  · intro s hs hlt
    exact (hc4 s hs hlt).1

/-- Concrete check for `verifyResponse_accepted_coverage` on an accepted
response. -/
theorem verifyResponse_accepted_coverage_check :
    (∀ idx ∈ ([0] : List Int), idx < (1 : Int) →
      ∃ s ∈ ([(0, some ⟨0, 0⟩, some ("A"))] :
          List (Int × Option Point × Option String)), s.1 = idx) ∧
    (∀ s ∈ ([(0, some ⟨0, 0⟩, some ("A"))] :
        List (Int × Option Point × Option String)),
      s.1 < (1 : Int) → s.1 ∈ ([0] : List Int)) :=
  verifyResponse_accepted_coverage ⟨[(⟨0, 0⟩, "A")], 1, 0⟩ ⟨"id", [0], "c"⟩
    ⟨"id", [(0, some ⟨0, 0⟩, some ("A"))], 1, "c", "n"⟩ (by decide)

/-- C3 counterexample: a response carrying the same in-bounds challenged
index twice (both entries matching the instance) is accepted by
`verify_response`, not rejected: the verifier collapses `revealed_steps`
into a lookup map keyed by index, so duplicated entries go unnoticed. -/
theorem verifyResponse_duplicate_accepted :
    verifyResponse ⟨[(⟨0, 0⟩, "A")], 1, 0⟩ ⟨"id", [0], "c"⟩
      ⟨"id", [(0, some ⟨0, 0⟩, some ("A")), (0, some ⟨0, 0⟩, some ("A"))],
        1, "c", "n"⟩ = true ∧
    (([(0, some ⟨0, 0⟩, some ("A")), (0, some ⟨0, 0⟩, some ("A"))] :
        List (Int × Option Point × Option String)).filter
      (fun s => s.1 == (0 : Int))).length = 2 ∧
    (0 : Int) < 1 := by
  refine ⟨by decide, by decide, by decide⟩

/-! ## Commitment scheme (C6) -/

theorem string_append_left_cancel {a b c : String} (h : a ++ b = a ++ c) :
    b = c := by
  have hd := congrArg String.data h
  simp only [String.data_append] at hd
  exact String.ext (List.append_cancel_left hd)

theorem string_append_right_cancel {a b c : String} (h : a ++ c = b ++ c) :
    a = b := by
  have hd := congrArg String.data h
  simp only [String.data_append] at hd
  exact String.ext (List.append_cancel_right hd)

/-- Two values with equal serialization receive identical commitments under
any digest function: `create` only sees the serialized bytes. -/
theorem create_eq_of_serialize_eq (sha256 : String → String) (v v' : Value)
    (n : String) (h : serializeValue v = serializeValue v') :
    Commitment.create sha256 v n = Commitment.create sha256 v' n := by
  unfold Commitment.create
  rw [h]

/-- C6 (amended): for an injective (collision-free) digest,
`Commitment.verify(c, v, n)` is true iff `c` is the commitment component of
`Commitment.create(v, n)`; from an accepting triple, changing `c` alone
makes it false, changing `n` alone makes it false, and changing `v` alone
makes it false provided the new value's serialization differs — values with
equal serialization (see the counterexample) are accepted interchangeably. -/
theorem commitment_open_unique (sha256 : String → String) (c c' : String)
    (v v' : Value) (n n' : String) (hinj : Function.Injective sha256) :
    ((Commitment.verify sha256 c v n = true) ↔
      c = (Commitment.create sha256 v n).1) ∧
    (Commitment.verify sha256 c v n = true → c' ≠ c →
      Commitment.verify sha256 c' v n = false) ∧
    (Commitment.verify sha256 c v n = true → n' ≠ n →
      Commitment.verify sha256 c v n' = false) ∧
    (Commitment.verify sha256 c v n = true →
      serializeValue v' ≠ serializeValue v →
      Commitment.verify sha256 c v' n = false) := by
  unfold Commitment.verify Commitment.create
  simp only [beq_iff_eq, Bool.eq_false_iff, ne_eq]
  refine ⟨trivial, ?_, ?_, ?_⟩
  · intro h hne
    subst h
    intro h'
    exact hne h'
  · intro h hne h'
    apply hne
    rw [h] at h'
    exact (string_append_left_cancel (hinj h')).symm
  · intro h hne h'
    apply hne
    rw [h] at h'
    have h2 := string_append_right_cancel (hinj h')
    exact (string_append_right_cancel h2).symm

/-- C6 counterexample: the integer `5` and the string `"5"` are different
values with identical serialization (`json.dumps(5)` is the text `5`), so
starting from the accepting triple for the string `"5"`, changing the value
alone to the integer `5` still verifies — for any digest function, since the
hashed bytes are identical (shown here at a concrete digest). -/
theorem commitment_change_value_counterexample :
    (Value.int 5 ≠ Value.str ("5")) ∧
    Commitment.verify (fun s => s)
      ((Commitment.create (fun s => s) (Value.str ("5")) ("aa")).1)
      (Value.str ("5")) ("aa") = true ∧
    Commitment.verify (fun s => s)
      ((Commitment.create (fun s => s) (Value.str ("5")) ("aa")).1)
      (Value.int 5) ("aa") = true :=
  ⟨by decide, by decide, by decide⟩

/-- Concrete check for `commitment_open_unique`: changing the nonce alone
(under the injective identity digest) makes verification fail. -/
theorem commitment_open_unique_check :
    Commitment.verify (fun s => s)
      ((Commitment.create (fun s => s) (Value.str ("v")) ("n1")).1)
      (Value.str ("v")) ("n2") = false :=
  (commitment_open_unique (fun s => s)
    ((Commitment.create (fun s => s) (Value.str ("v")) ("n1")).1)
    ("x") (Value.str ("v")) (Value.str ("v")) ("n1") ("n2")
    (fun _ _ h => h)).2.2.1 (by decide) (by decide)

/-! ## Completeness (C1) -/

/-- Completeness over an arbitrary instance: an honestly generated witness,
challenged through `create_challenge` on any nonnegative draws and answered
through `respond_to_challenge`, always verifies. -/
theorem completeness_general (inst : Instance) (sha256 : String → String)
    (pathLength : Nat) (start : Point) (nonce cid : String) (num : Nat)
    (draws : List Int) (hdraws : ∀ d ∈ draws, 0 ≤ d) :
    verifyResponse inst
      (createChallenge inst
        (generateWitness sha256 inst pathLength start nonce).commitment
        num cid draws)
      (respondToChallenge
        (generateWitness sha256 inst pathLength start nonce)
        (createChallenge inst
          (generateWitness sha256 inst pathLength start nonce).commitment
          num cid draws)) = true := by
  set w := generateWitness sha256 inst pathLength start nonce with hw
  set ch := createChallenge inst w.commitment num cid draws with hch
  set f : Int → Int × Option Point × Option String := fun posIdx =>
    if posIdx < (w.path.length : Int) then
      match pyGet w.path posIdx with
      | some s => (posIdx, some s.1, some s.2)
      | none => (posIdx, (none : Option Point), (none : Option String))
    else (posIdx, none, none) with hfdef
  have hrsteps : (respondToChallenge w ch).revealed_steps =
      ch.positions.map f := rfl
  have hrpl : (respondToChallenge w ch).path_length =
      (w.path.length : Int) := rfl
  have hf1 : ∀ i, (f i).1 = i := by
    intro i
    rw [hfdef]
    dsimp only
    by_cases h : i < (w.path.length : Int)
    · rw [if_pos h]
      rcases hp : pyGet w.path i with _ | s
      · rfl
      · rfl
    · rw [if_neg h]
  have hnd : ch.positions.Nodup := by
    rw [hch]
    exact createChallenge_positions_nodup inst w.commitment num cid draws
  have hpos0 : ∀ i ∈ ch.positions, 0 ≤ i := by
    intro i hi
    rw [hch] at hi
    have hmem :=
      (mem_createChallenge_positions inst w.commitment num cid draws i).mp hi
    exact (hdraws i (List.mem_of_mem_take hmem))
  have hlook : ∀ i ∈ ch.positions,
      lookupLastStep (ch.positions.map f) i = some ((f i).2) :=
    fun i hi => lookupLastStep_map f hf1 ch.positions hnd i hi
  have hvalid : ∀ s ∈ w.path, dictLookup inst.tiles s.1 = some s.2 :=
    (generateWitness_path_invariant sha256 inst pathLength start nonce).2
  have hstepOk : ∀ i ∈ ch.positions, i < (w.path.length : Int) →
      stepOk inst ((f i).2) = true := by
    intro i hi hlt
    have h0 : 0 ≤ i := hpos0 i hi
    have hidx : i.toNat < w.path.length := by omega
    have hs : w.path.get? i.toNat = some (w.path.get ⟨i.toNat, hidx⟩) :=
      List.get?_eq_get hidx
    have hmem : w.path.get ⟨i.toNat, hidx⟩ ∈ w.path := List.get_mem _ _ _
    have hfi : f i = (i, some (w.path.get ⟨i.toNat, hidx⟩).1,
        some (w.path.get ⟨i.toNat, hidx⟩).2) := by
      rw [hfdef]
      dsimp only
      rw [if_pos hlt]
      unfold pyGet
      rw [if_pos h0, hs]
    rw [hfi]
    simp only [stepOk, hvalid _ hmem, beq_self_eq_true]
  have hlen : (w.path.length : Int) ≤ (inst.tiles.length : Int) := by
    have hb := findPath_length_le_tiles inst.tiles start pathLength
    have hpath : w.path = findPath inst.tiles start pathLength := rfl
    rw [hpath]
    exact_mod_cast hb
  rw [verifyResponse_eq_true_iff]
  refine ⟨rfl, rfl, ?_, ?_, ?_, hlen⟩
  · intro posIdx hmem hlt
    rw [hrsteps]
    rw [hrpl] at hlt
    exact ⟨(f posIdx).2, hlook posIdx hmem, hstepOk posIdx hmem hlt⟩
  · intro s hs hlt
    rw [hrsteps] at hs
    rw [hrpl] at hlt
    obtain ⟨i, hi, rfl⟩ := List.mem_map.mp hs
    rw [hf1 i] at hlt ⊢
    refine ⟨hi, ?_⟩
    rw [hrsteps]
    exact ⟨(f i).2, hlook i hi, hstepOk i hi hlt⟩
  · rw [hrpl]
    exact_mod_cast Nat.zero_le w.path.length

/-- C1: for every instance produced by `create_instance`, every witness
honestly produced from it by `generate_witness` (any path length and start
point), and every challenge produced from that instance and the witness's
commitment by `create_challenge` (the draws being `randbelow(size*size)`
outcomes), verifying the honest response returned by
`respond_to_challenge` succeeds. -/
theorem protocol_completeness (hashPos : Int → Int → Nat) (seed : Int)
    (size : Nat) (sha256 : String → String) (pathLength : Nat) (start : Point)
    (nonce cid : String) (num : Nat) (draws : List Int)
    (hdraws : ∀ d ∈ draws, 0 ≤ d ∧ d < ((size * size : Nat) : Int)) :
    verifyResponse (createInstance hashPos seed size)
      (createChallenge (createInstance hashPos seed size)
        (generateWitness sha256 (createInstance hashPos seed size) pathLength
          start nonce).commitment num cid draws)
      (respondToChallenge
        (generateWitness sha256 (createInstance hashPos seed size) pathLength
          start nonce)
        (createChallenge (createInstance hashPos seed size)
          (generateWitness sha256 (createInstance hashPos seed size)
            pathLength start nonce).commitment num cid draws)) = true :=
  completeness_general (createInstance hashPos seed size) sha256 pathLength
    start nonce cid num draws (fun d hd => (hdraws d hd).1)

/-- Concrete check for `protocol_completeness`: a full honest protocol run
on a 2×2 instance with draws `[0, 2]` verifies. -/
theorem protocol_completeness_check :
    (∀ d ∈ ([0, 2] : List Int), 0 ≤ d ∧ d < ((2 * 2 : Nat) : Int)) ∧
    verifyResponse (createInstance (fun x y => (x + 2 * y).natAbs) 0 2)
      (createChallenge (createInstance (fun x y => (x + 2 * y).natAbs) 0 2)
        (generateWitness (fun s => s)
          (createInstance (fun x y => (x + 2 * y).natAbs) 0 2) 3 ⟨0, 0⟩
          ("nn")).commitment 2 ("cid") [0, 2])
      (respondToChallenge
        (generateWitness (fun s => s)
          (createInstance (fun x y => (x + 2 * y).natAbs) 0 2) 3 ⟨0, 0⟩
          ("nn"))
        (createChallenge (createInstance (fun x y => (x + 2 * y).natAbs) 0 2)
          (generateWitness (fun s => s)
            (createInstance (fun x y => (x + 2 * y).natAbs) 0 2) 3 ⟨0, 0⟩
            ("nn")).commitment 2 ("cid") [0, 2])) = true := by
  have hdraws : ∀ d ∈ ([0, 2] : List Int), 0 ≤ d ∧ d < ((2 * 2 : Nat) : Int) := by
    intro d hd
    rcases List.mem_cons.mp hd with rfl | hd
    · exact ⟨by decide, by decide⟩
    · rcases List.mem_cons.mp hd with rfl | hd
      · exact ⟨by decide, by decide⟩
      · exact absurd hd (List.not_mem_nil d)
  exact ⟨hdraws,
    protocol_completeness (fun x y => (x + 2 * y).natAbs) 0 2 (fun s => s)
      3 ⟨0, 0⟩ ("nn") ("cid") 2 [0, 2] hdraws⟩
